import Mathlib

/-!
# Verification of the `fckng-w2v` word2vec binary parser (`src/parser.rs`)

Shallow embedding of the parser in Lean 4. Bytes are modelled as `Nat`
values (< 256 in well-formed inputs); byte slices are `List Nat`. A
nom `IResult` is modelled by `PRes`: `ok remaining value` for
`Ok((remaining, value))`, `err` for `Err(nom::Err::Error(..))` carrying
the error's input slice and error kind, and `crash` for a Rust panic
(`unwrap"/"expect` on an error, a failed `assert_eq!`, or an integer
parse overflow panic). `f32` values are represented by their 32-bit
little-endian bit patterns as `Nat` (`le_f32` in the source is a
bit-preserving `f32::from_le_bytes`; the program performs no float
arithmetic, so the bit-pattern model is exact). Rust `String`s are
modelled as lists of unicode scalar values (`List Nat`).
-/

/-- nom error kinds produced by the combinators the source uses:
`digit1` (`ErrorKind::Digit`), `tag` (`ErrorKind::Tag`),
`take_till1` (`ErrorKind::TakeTill1`), `take`/`le_f32`
(`ErrorKind::Eof`). -/
inductive ErrKind where
  | Digit
  | Tag
  | TakeTill1
  | Eof
deriving DecidableEq, Repr

/-- A nom `Error { input, code }` value: the input slice at the point of
failure and the error kind. -/
structure NomErr where
  rest : List Nat
  kind : ErrKind
deriving DecidableEq, Repr

/-- Outcome of running a parser from the source: success with the
remaining input and the parsed value, a returned nom error, or a Rust
panic (process abort). -/
inductive PRes (α : Type) where
  | ok (rest : List Nat) (val : α)
  | err (e : NomErr)
  | crash
deriving DecidableEq, Repr

/-- Is `b` an ASCII decimal digit byte (`0x30`–`0x39`)? This is the
byte class accepted by nom's `digit1`. -/
def isDigitByte (b : Nat) : Bool := 48 ≤ b && b ≤ 57

/-- nom's `digit1` on a byte slice: consumes the longest nonempty prefix
of ASCII digit bytes; errors with `ErrorKind::Digit` if that prefix is
empty (including on empty input). Returns the consumed digits. -/
def digit1 (input : List Nat) : PRes (List Nat) :=
  if (input.takeWhile isDigitByte).isEmpty then .err ⟨input, .Digit⟩
  else .ok (input.dropWhile isDigitByte) (input.takeWhile isDigitByte)

/-- nom's `tag(&[t])` on a byte slice: consumes one byte equal to `t`,
errors with `ErrorKind::Tag` otherwise (including on empty input, since
the source uses the `complete` combinators). -/
def tagByte (t : Nat) (input : List Nat) : PRes Unit :=
  match input with
  | [] => .err ⟨[], .Tag⟩
  | b :: rest => if b = t then .ok rest () else .err ⟨b :: rest, .Tag⟩

/-- Value of a big-endian list of ASCII digit bytes, as computed by
Rust's `str::parse::<u32>` before its range check: fold multiplying by
ten and adding the digit value of each byte. -/
def digitsToNat (ds : List Nat) : Nat :=
  ds.foldl (fun a d => 10 * a + (d - 48)) 0

/-- `ascii_u32_terminated_by` from `src/parser.rs` lines 16–27: runs
`digit1`, then `tag(&[terminator])`, propagating either failure; then
`str::parse::<u32>().unwrap()` on the digits, which panics
(`crash`) when the value does not fit in 32 bits. -/
def ascii_u32_terminated_by (input : List Nat) (terminator : Nat) : PRes Nat :=
  match digit1 input with
  | .err e => .err e
  | .crash => .crash
  | .ok input1 ds =>
    match tagByte terminator input1 with
    | .err e => .err e
    | .crash => .crash
    | .ok input2 _ =>
      let v := digitsToNat ds
      if v < 2 ^ 32 then .ok input2 v else .crash

/-- Is `b` a UTF-8 continuation byte (`0x80`–`0xBF`)? -/
def contB (b : Nat) : Bool := 128 ≤ b && b ≤ 191

/-- Valid second bytes of a three-byte UTF-8 sequence, by first byte
(`0xE0` requires `0xA0`–`0xBF`, `0xED` requires `0x80`–`0x9F` to
exclude overlong encodings and surrogates, the rest any continuation
byte), as in Rust's UTF-8 validation. -/
def valid3 (b0 b1 : Nat) : Bool :=
  (b0 == 224 && 160 ≤ b1 && b1 ≤ 191) ||
  (225 ≤ b0 && b0 ≤ 236 && contB b1) ||
  (b0 == 237 && 128 ≤ b1 && b1 ≤ 159) ||
  (238 ≤ b0 && b0 ≤ 239 && contB b1)

/-- Valid second bytes of a four-byte UTF-8 sequence, by first byte
(`0xF0` requires `0x90`–`0xBF`, `0xF4` requires `0x80`–`0x8F` to stay
below `U+110000`, the rest any continuation byte), as in Rust's UTF-8
validation. -/
def valid4 (b0 b1 : Nat) : Bool :=
  (b0 == 240 && 144 ≤ b1 && b1 ≤ 191) ||
  (241 ≤ b0 && b0 ≤ 243 && contB b1) ||
  (b0 == 244 && 128 ≤ b1 && b1 ≤ 143)

/-- Rust's `String::from_utf8_lossy` on a byte slice, producing the
list of unicode scalar values of the resulting `String`. Each maximal
invalid subpart is replaced by one `U+FFFD` (65533) replacement
character, per the substitution-of-maximal-subparts policy: an invalid
or out-of-place first byte is skipped alone; a valid prefix of a
multi-byte sequence followed by an invalid byte is skipped as a unit up
to the offending byte, which starts the next decode attempt; a valid
but incomplete sequence at the end of input yields one final `U+FFFD`. -/
def utf8Lossy : List Nat → List Nat
  | [] => []
  | b0 :: rest =>
    if b0 < 128 then b0 :: utf8Lossy rest
    else if b0 < 194 then 65533 :: utf8Lossy rest
    else if b0 < 224 then
      match rest with
      | [] => [65533]
      | b1 :: rest1 =>
        if contB b1 then ((b0 - 192) * 64 + (b1 - 128)) :: utf8Lossy rest1
        else 65533 :: utf8Lossy (b1 :: rest1)
    else if b0 < 240 then
      match rest with
      | [] => [65533]
      | b1 :: rest1 =>
        if valid3 b0 b1 then
          match rest1 with
          | [] => [65533]
          | b2 :: rest2 =>
            if contB b2 then
              ((b0 - 224) * 4096 + (b1 - 128) * 64 + (b2 - 128)) :: utf8Lossy rest2
            else 65533 :: utf8Lossy (b2 :: rest2)
        else 65533 :: utf8Lossy (b1 :: rest1)
    else if b0 < 245 then
      match rest with
      | [] => [65533]
      | b1 :: rest1 =>
        if valid4 b0 b1 then
          match rest1 with
          | [] => [65533]
          | b2 :: rest2 =>
            if contB b2 then
              match rest2 with
              | [] => [65533]
              | b3 :: rest3 =>
                if contB b3 then
                  ((b0 - 240) * 262144 + (b1 - 128) * 4096 + (b2 - 128) * 64 + (b3 - 128)) ::
                    utf8Lossy rest3
                else 65533 :: utf8Lossy (b3 :: rest3)
            else 65533 :: utf8Lossy (b2 :: rest2)
        else 65533 :: utf8Lossy (b1 :: rest1)
    else 65533 :: utf8Lossy rest

/-- Rust's `str::from_utf8` validity check (`run_utf8_validation`) on a
byte slice: `true` exactly when the bytes are well-formed UTF-8. Same
branch structure as `utf8Lossy`, failing where `utf8Lossy` emits a
replacement character. -/
def isValidUtf8 : List Nat → Bool
  | [] => true
  | b0 :: rest =>
    if b0 < 128 then isValidUtf8 rest
    else if b0 < 194 then false
    else if b0 < 224 then
      match rest with
      | [] => false
      | b1 :: rest1 => if contB b1 then isValidUtf8 rest1 else false
    else if b0 < 240 then
      match rest with
      | [] => false
      | b1 :: rest1 =>
        if valid3 b0 b1 then
          match rest1 with
          | [] => false
          | b2 :: rest2 => if contB b2 then isValidUtf8 rest2 else false
        else false
    else if b0 < 245 then
      match rest with
      | [] => false
      | b1 :: rest1 =>
        if valid4 b0 b1 then
          match rest1 with
          | [] => false
          | b2 :: rest2 =>
            if contB b2 then
              match rest2 with
              | [] => false
              | b3 :: rest3 => if contB b3 then isValidUtf8 rest3 else false
            else false
        else false
    else false

/-- nom's `take_till1(p)` on a byte slice (complete version): consumes
the longest nonempty prefix of bytes on which `p` is false; errors with
`ErrorKind::TakeTill1` when that prefix is empty (first byte satisfies
`p`, or empty input). If `p` never holds it consumes the whole input. -/
def take_till1 (p : Nat → Bool) (input : List Nat) : PRes (List Nat) :=
  if (input.takeWhile (fun b => !(p b))).isEmpty then .err ⟨input, .TakeTill1⟩
  else .ok (input.dropWhile (fun b => !(p b))) (input.takeWhile (fun b => !(p b)))

/-- `string_terminated_by` from `src/parser.rs` lines 58–69: takes
everything up to the terminator with `take_till1`, consumes the
terminator with `tag`, and converts the taken bytes with
`String::from_utf8_lossy`. Both combinator failures are propagated
with `?`. -/
def string_terminated_by (input : List Nat) (terminator : Nat) : PRes (List Nat) :=
  match take_till1 (fun c => c == terminator) input with
  | .err e => .err e
  | .crash => .crash
  | .ok input1 s =>
    match tagByte terminator input1 with
    | .err e => .err e
    | .crash => .crash
    | .ok input2 _ => .ok input2 (utf8Lossy s)

/-- nom's `take(n)` on a byte slice (complete version): consumes
exactly `n` bytes, errors with `ErrorKind::Eof` when fewer remain. -/
def takeBytes (n : Nat) (input : List Nat) : PRes (List Nat) :=
  if input.length < n then .err ⟨input, .Eof⟩
  else .ok (input.drop n) (input.take n)

/-- nom's `le_f32` on a byte slice (complete version): consumes 4 bytes
and returns the 32-bit little-endian word they form — the exact bit
pattern of the `f32` the source produces via `f32::from_le_bytes`;
errors with `ErrorKind::Eof` when fewer than 4 bytes remain. -/
def le_f32 (input : List Nat) : PRes Nat :=
  match input with
  | b0 :: b1 :: b2 :: b3 :: rest =>
      .ok rest (b0 + 256 * b1 + 65536 * b2 + 16777216 * b3)
  | _ => .err ⟨input, .Eof⟩

/-- nom's `count(f, n)`: runs `f` exactly `n` times in sequence, each
run consuming the input left by the previous one, collecting the
results in order; the first failure (or panic inside `f`) is the
overall outcome. -/
def countP {α : Type} (f : List Nat → PRes α) : Nat → List Nat → PRes (List α)
  | 0, input => .ok input []
  | n + 1, input =>
    match f input with
    | .err e => .err e
    | .crash => .crash
    | .ok rest v =>
      match countP f n rest with
      | .err e => .err e
      | .crash => .crash
      | .ok rest2 vs => .ok rest2 (v :: vs)

/-- One decoded record (`Word2VecEmbedding` in the source): the word as
the scalar values of the lossily decoded `String`, and the embedding as
the 32-bit little-endian bit patterns of its `f32` components. -/
structure Word2VecEmbedding where
  word : List Nat
  embedding : List Nat
deriving DecidableEq, Repr

/-- `Word2VecEmbedding::parse` from `src/parser.rs` lines 72–87:
decodes the space-terminated word (the result is `.unwrap()`ed, so a
word decode failure panics), takes `embeddings_dim * 4` bytes, then
decodes the taken bytes with `count(le_f32, 300)` — the count is the
hard-coded constant `300usize` from line 82, not `embeddings_dim` —
and finally `assert_eq!`s that the taken bytes were fully consumed,
panicking otherwise. -/
def Word2VecEmbedding.parse (input : List Nat) (embeddings_dim : Nat) :
    PRes Word2VecEmbedding :=
  match string_terminated_by input 32 with
  | .err _ => .crash
  | .crash => .crash
  | .ok bytes word =>
    match takeBytes (embeddings_dim * 4) bytes with
    | .err e => .err e
    | .crash => .crash
    | .ok bytes2 embBytes =>
      match countP le_f32 300 embBytes with
      | .err e => .err e
      | .crash => .crash
      | .ok remaining embedding =>
        if remaining.length = 0 then .ok bytes2 ⟨word, embedding⟩
        else .crash

/-- Insert into the model of the `HashMap<String, Word2VecEmbedding>`:
any existing binding of the key is removed and the new binding added
(the observable behavior of `HashMap::insert`, which `collect` applies
to each pair in iteration order). -/
def mapInsert (m : List (List Nat × Word2VecEmbedding)) (k : List Nat)
    (v : Word2VecEmbedding) : List (List Nat × Word2VecEmbedding) :=
  m.filter (fun p => p.1 != k) ++ [(k, v)]

/-- Lookup in the `HashMap` model. -/
def mapLookup (m : List (List Nat × Word2VecEmbedding)) (k : List Nat) :
    Option Word2VecEmbedding :=
  match m with
  | [] => none
  | (k1, v) :: rest => if k1 == k then some v else mapLookup rest k

/-- The `HashMap` built by `Word2Vec::new` lines 113–117:
`embeddings_vec.into_iter().map(|e| (e.word.clone(), e)).collect()`,
i.e. each record inserted under its word key in file order. -/
def buildMap (es : List Word2VecEmbedding) : List (List Nat × Word2VecEmbedding) :=
  es.foldl (fun m e => mapInsert m e.word e) []

/-- The two-field file header (`Word2VecHeader` in the source). -/
structure Word2VecHeader where
  embeddings_count : Nat
  embeddings_dim : Nat
deriving DecidableEq, Repr

/-- `Word2VecHeader::parse` from `src/parser.rs` lines 36–49: decodes
`embeddings_count` terminated by a space (0x20) and `embeddings_dim`
terminated by a line feed (0x0A). Both decoder results are
`.unwrap()`ed in the source, so a decode failure panics (`crash`)
instead of being returned as an error. -/
def Word2VecHeader.parse (input : List Nat) : PRes Word2VecHeader :=
  match ascii_u32_terminated_by input 32 with
  | .err _ => .crash
  | .crash => .crash
  | .ok bytes embeddings_count =>
    match ascii_u32_terminated_by bytes 10 with
    | .err _ => .crash
    | .crash => .crash
    | .ok bytes2 embeddings_dim =>
      .ok bytes2 ⟨embeddings_count, embeddings_dim⟩

/-- The in-memory store (`Word2Vec` in the source): the parsed header
and the word-keyed map of records. -/
structure Word2Vec where
  header : Word2VecHeader
  embeddings : List (List Nat × Word2VecEmbedding)
deriving DecidableEq, Repr

/-- Outcome of `Word2Vec::new`, whose Rust signature returns `Self`
(not a `Result`): either the built store or a panic. -/
inductive LoadResult where
  | ok (w2v : Word2Vec)
  | crash
deriving DecidableEq, Repr

/-- `Word2Vec::new` from `src/parser.rs` lines 96–120, its pure part:
the argument is the memory-mapped file contents. Parses the header
(`.expect(..)`, so a header error panics — though `Word2VecHeader.parse`
itself never returns an error, having `.unwrap()`ed internally), then
`count`s exactly `header.embeddings_count` records (`.expect(..)`, so a
record error panics), then `assert_eq!`s that zero bytes remain,
panicking otherwise, and finally collects the records into the map. -/
def Word2Vec.new (bytes : List Nat) : LoadResult :=
  match Word2VecHeader.parse bytes with
  | .err _ => .crash
  | .crash => .crash
  | .ok bytes1 header =>
    match countP (fun b => Word2VecEmbedding.parse b header.embeddings_dim)
        header.embeddings_count bytes1 with
    | .err _ => .crash
    | .crash => .crash
    | .ok bytes2 embeddings_vec =>
      if bytes2.length = 0 then .ok ⟨header, buildMap embeddings_vec⟩
      else .crash

/-- `Word2Vec::dictionary` from `src/parser.rs` lines 123–125: the list
of keys of the embeddings map. -/
def Word2Vec.dictionary (w : Word2Vec) : List (List Nat) :=
  w.embeddings.map (fun p => p.1)

/-- Modelled from the spec (§8 `format(n)`): the ASCII decimal
rendering of `n`, most significant digit first, with `fuel` bounding
the recursion (`decimalDigits` passes `fuel = n ≥ n`, which suffices). -/
def decimalDigitsAux (fuel n : Nat) : List Nat :=
  match fuel with
  | 0 => []
  | fuel + 1 => if n = 0 then [] else decimalDigitsAux fuel (n / 10) ++ [n % 10 + 48]

/-- Modelled from the spec (§8 `format(n)`): the standard ASCII decimal
rendering of `n` (`"0"` for zero, no leading zeros otherwise). -/
def decimalDigits (n : Nat) : List Nat :=
  if n = 0 then [48] else decimalDigitsAux n n

/-- Specification device for claim C7: the last element of `es` whose
word is `w`, if any ("the last such record in file order"). -/
def lastWith (w : List Nat) : List Word2VecEmbedding → Option Word2VecEmbedding
  | [] => none
  | e :: es =>
    match lastWith w es with
    | some v => some v
    | none => if e.word == w then some e else none

/-- Concrete test file: header `"2 300\n"`. -/
def dupHeaderBytes : List Nat := [50, 32, 51, 48, 48, 10]

/-- Concrete test record 1: word `"a"`, 300 zero floats. -/
def dupRec1 : List Nat := [97, 32] ++ List.replicate 1200 0

/-- Concrete test record 2: word `"a"` again, first float byte 1
(bit pattern `0x00000001`), the rest zero. -/
def dupRec2 : List Nat := [97, 32] ++ (1 :: List.replicate 1199 0)

/-- Concrete test file with two records sharing the word `"a"`. -/
def dupFile : List Nat := dupHeaderBytes ++ (dupRec1 ++ dupRec2)

/-- The record decoded from `dupRec1`. -/
def dupE1 : Word2VecEmbedding := ⟨[97], List.replicate 300 0⟩

/-- The record decoded from `dupRec2`. -/
def dupE2 : Word2VecEmbedding := ⟨[97], 1 :: List.replicate 299 0⟩

/-- The record list decoded from `dupRec1 ++ dupRec2`. -/
def dupEs : List Word2VecEmbedding := [dupE1, dupE2]

/-! ## Helper lemmas -/

theorem takeWhile_append_cons {p : Nat → Bool} {xs : List Nat} {y : Nat} {ys : List Nat}
    (hxs : ∀ b ∈ xs, p b = true) (hy : p y = false) :
    (xs ++ y :: ys).takeWhile p = xs := by
  induction xs with
  | nil => simp [List.takeWhile, hy]
  | cons a xs ih =>
    have ha : p a = true := hxs a (by simp)
    simp only [List.cons_append, List.takeWhile, ha]
    exact congrArg (a :: ·) (ih fun b hb => hxs b (by simp [hb]))

theorem dropWhile_append_cons {p : Nat → Bool} {xs : List Nat} {y : Nat} {ys : List Nat}
    (hxs : ∀ b ∈ xs, p b = true) (hy : p y = false) :
    (xs ++ y :: ys).dropWhile p = y :: ys := by
  induction xs with
  | nil => simp [List.dropWhile, hy]
  | cons a xs ih =>
    have ha : p a = true := hxs a (by simp)
    simp only [List.cons_append, List.dropWhile, ha]
    exact ih fun b hb => hxs b (by simp [hb])

theorem digit1_digits_cons {ds : List Nat} {t : Nat} {rest : List Nat}
    (hne : ds ≠ []) (hds : ∀ d ∈ ds, isDigitByte d = true) (ht : isDigitByte t = false) :
    digit1 (ds ++ t :: rest) = .ok (t :: rest) ds := by
  unfold digit1
  rw [takeWhile_append_cons hds ht, dropWhile_append_cons hds ht]
  simp [List.isEmpty_iff, hne]

theorem ascii_u32_digits_cons {ds : List Nat} {t : Nat} (rest : List Nat)
    (hne : ds ≠ []) (hds : ∀ d ∈ ds, isDigitByte d = true) (ht : isDigitByte t = false)
    (hv : digitsToNat ds < 2 ^ 32) :
    ascii_u32_terminated_by (ds ++ t :: rest) t = .ok rest (digitsToNat ds) := by
  unfold ascii_u32_terminated_by
  rw [digit1_digits_cons hne hds ht]
  simp only [tagByte, if_pos rfl]
  have hv2 : digitsToNat ds < 4294967296 := by
    have : (2 : Nat) ^ 32 = 4294967296 := by norm_num
    omega
  simp [hv2]

theorem digitsToNat_snoc (xs : List Nat) (d : Nat) :
    digitsToNat (xs ++ [d]) = 10 * digitsToNat xs + (d - 48) := by
  simp [digitsToNat, List.foldl_append]

theorem decimalDigitsAux_all_digits (fuel : Nat) :
    ∀ n, ∀ d ∈ decimalDigitsAux fuel n, isDigitByte d = true := by
  induction fuel with
  | zero => intro n d hd; simp [decimalDigitsAux] at hd
  | succ fuel ih =>
    intro n d hd
    unfold decimalDigitsAux at hd
    by_cases hn : n = 0
    · simp [hn] at hd
    · rw [if_neg hn] at hd
      rcases List.mem_append.mp hd with h | h
      · exact ih (n / 10) d h
      · have : d = n % 10 + 48 := by simpa using h
        have : n % 10 < 10 := Nat.mod_lt _ (by norm_num)
        simp only [isDigitByte]
        subst d
        simp only [Bool.and_eq_true, decide_eq_true_eq]
        omega

theorem decimalDigitsAux_val (fuel : Nat) :
    ∀ n, n ≤ fuel → digitsToNat (decimalDigitsAux fuel n) = n := by
  induction fuel with
  | zero =>
    intro n hn
    have : n = 0 := Nat.le_zero.mp hn
    simp [decimalDigitsAux, digitsToNat, this]
  | succ fuel ih =>
    intro n hn
    unfold decimalDigitsAux
    by_cases hn0 : n = 0
    · simp [hn0, digitsToNat]
    · rw [if_neg hn0, digitsToNat_snoc]
      have hdiv : n / 10 ≤ fuel := by
        have : n / 10 < n := Nat.div_lt_self (Nat.pos_of_ne_zero hn0) (by norm_num)
        omega
      rw [ih (n / 10) hdiv]
      omega

theorem decimalDigits_all_digits (n : Nat) :
    ∀ d ∈ decimalDigits n, isDigitByte d = true := by
  intro d hd
  unfold decimalDigits at hd
  by_cases hn : n = 0
  · rw [if_pos hn] at hd
    have : d = 48 := by simpa using hd
    subst d; decide
  · rw [if_neg hn] at hd
    exact decimalDigitsAux_all_digits n n d hd

theorem decimalDigits_ne_nil (n : Nat) : decimalDigits n ≠ [] := by
  unfold decimalDigits
  by_cases hn : n = 0
  · simp [hn]
  · rw [if_neg hn]
    match hfuel : n with
    | 0 => exact absurd rfl hn
    | m + 1 =>
      unfold decimalDigitsAux
      rw [if_neg hn]
      simp

theorem decimalDigits_val (n : Nat) : digitsToNat (decimalDigits n) = n := by
  unfold decimalDigits
  by_cases hn : n = 0
  · simp [hn, digitsToNat]
  · rw [if_neg hn]
    exact decimalDigitsAux_val n n (Nat.le_refl n)


theorem utf8Lossy_one_ok {b0 : Nat} (rest : List Nat) (h1 : b0 < 128) :
    utf8Lossy (b0 :: rest) = b0 :: utf8Lossy rest := by
  rw [utf8Lossy.eq_def]; simp [h1]

theorem utf8Lossy_bad_lead {b0 : Nat} (rest : List Nat) (h1 : ¬ b0 < 128) (h2 : b0 < 194) :
    utf8Lossy (b0 :: rest) = 65533 :: utf8Lossy rest := by
  rw [utf8Lossy.eq_def]; simp [h1, h2]

theorem utf8Lossy_two_end {b0 : Nat} (h1 : ¬ b0 < 128) (h2 : ¬ b0 < 194) (h3 : b0 < 224) :
    utf8Lossy [b0] = [65533] := by
  rw [utf8Lossy.eq_def]; simp [h1, h2, h3]

theorem utf8Lossy_two_ok {b0 b1 : Nat} (rest : List Nat) (h1 : ¬ b0 < 128) (h2 : ¬ b0 < 194)
    (h3 : b0 < 224) (hc : contB b1 = true) :
    utf8Lossy (b0 :: b1 :: rest) = ((b0 - 192) * 64 + (b1 - 128)) :: utf8Lossy rest := by
  rw [utf8Lossy.eq_def]; simp [h1, h2, h3, hc]

theorem utf8Lossy_two_bad {b0 b1 : Nat} (rest : List Nat) (h1 : ¬ b0 < 128) (h2 : ¬ b0 < 194)
    (h3 : b0 < 224) (hc : contB b1 = false) :
    utf8Lossy (b0 :: b1 :: rest) = 65533 :: utf8Lossy (b1 :: rest) := by
  rw [utf8Lossy.eq_def]; simp [h1, h2, h3, hc]

theorem utf8Lossy_three_end1 {b0 : Nat} (h1 : ¬ b0 < 128) (h2 : ¬ b0 < 194) (h3 : ¬ b0 < 224)
    (h4 : b0 < 240) : utf8Lossy [b0] = [65533] := by
  rw [utf8Lossy.eq_def]; simp [h1, h2, h3, h4]

theorem utf8Lossy_three_end2 {b0 b1 : Nat} (h1 : ¬ b0 < 128) (h2 : ¬ b0 < 194) (h3 : ¬ b0 < 224)
    (h4 : b0 < 240) (hv : valid3 b0 b1 = true) : utf8Lossy [b0, b1] = [65533] := by
  rw [utf8Lossy.eq_def]; simp [h1, h2, h3, h4, hv]

theorem utf8Lossy_three_ok {b0 b1 b2 : Nat} (rest : List Nat) (h1 : ¬ b0 < 128)
    (h2 : ¬ b0 < 194) (h3 : ¬ b0 < 224) (h4 : b0 < 240) (hv : valid3 b0 b1 = true)
    (hc : contB b2 = true) :
    utf8Lossy (b0 :: b1 :: b2 :: rest) =
      ((b0 - 224) * 4096 + (b1 - 128) * 64 + (b2 - 128)) :: utf8Lossy rest := by
  rw [utf8Lossy.eq_def]; simp [h1, h2, h3, h4, hv, hc]

theorem utf8Lossy_three_bad2 {b0 b1 b2 : Nat} (rest : List Nat) (h1 : ¬ b0 < 128)
    (h2 : ¬ b0 < 194) (h3 : ¬ b0 < 224) (h4 : b0 < 240) (hv : valid3 b0 b1 = true)
    (hc : contB b2 = false) :
    utf8Lossy (b0 :: b1 :: b2 :: rest) = 65533 :: utf8Lossy (b2 :: rest) := by
  rw [utf8Lossy.eq_def]; simp [h1, h2, h3, h4, hv, hc]

theorem utf8Lossy_three_bad1 {b0 b1 : Nat} (rest : List Nat) (h1 : ¬ b0 < 128)
    (h2 : ¬ b0 < 194) (h3 : ¬ b0 < 224) (h4 : b0 < 240) (hv : valid3 b0 b1 = false) :
    utf8Lossy (b0 :: b1 :: rest) = 65533 :: utf8Lossy (b1 :: rest) := by
  rw [utf8Lossy.eq_def]; simp [h1, h2, h3, h4, hv]

theorem utf8Lossy_four_end1 {b0 : Nat} (h1 : ¬ b0 < 128) (h2 : ¬ b0 < 194) (h3 : ¬ b0 < 224)
    (h4 : ¬ b0 < 240) (h5 : b0 < 245) : utf8Lossy [b0] = [65533] := by
  rw [utf8Lossy.eq_def]; simp [h1, h2, h3, h4, h5]

theorem utf8Lossy_four_end2 {b0 b1 : Nat} (h1 : ¬ b0 < 128) (h2 : ¬ b0 < 194) (h3 : ¬ b0 < 224)
    (h4 : ¬ b0 < 240) (h5 : b0 < 245) (hv : valid4 b0 b1 = true) :
    utf8Lossy [b0, b1] = [65533] := by
  rw [utf8Lossy.eq_def]; simp [h1, h2, h3, h4, h5, hv]

theorem utf8Lossy_four_end3 {b0 b1 b2 : Nat} (h1 : ¬ b0 < 128) (h2 : ¬ b0 < 194)
    (h3 : ¬ b0 < 224) (h4 : ¬ b0 < 240) (h5 : b0 < 245) (hv : valid4 b0 b1 = true)
    (hc : contB b2 = true) : utf8Lossy [b0, b1, b2] = [65533] := by
  rw [utf8Lossy.eq_def]; simp [h1, h2, h3, h4, h5, hv, hc]

theorem utf8Lossy_four_ok {b0 b1 b2 b3 : Nat} (rest : List Nat) (h1 : ¬ b0 < 128)
    (h2 : ¬ b0 < 194) (h3 : ¬ b0 < 224) (h4 : ¬ b0 < 240) (h5 : b0 < 245)
    (hv : valid4 b0 b1 = true) (hc2 : contB b2 = true) (hc3 : contB b3 = true) :
    utf8Lossy (b0 :: b1 :: b2 :: b3 :: rest) =
      ((b0 - 240) * 262144 + (b1 - 128) * 4096 + (b2 - 128) * 64 + (b3 - 128)) ::
        utf8Lossy rest := by
  rw [utf8Lossy.eq_def]; simp [h1, h2, h3, h4, h5, hv, hc2, hc3]

theorem utf8Lossy_four_bad3 {b0 b1 b2 b3 : Nat} (rest : List Nat) (h1 : ¬ b0 < 128)
    (h2 : ¬ b0 < 194) (h3 : ¬ b0 < 224) (h4 : ¬ b0 < 240) (h5 : b0 < 245)
    (hv : valid4 b0 b1 = true) (hc2 : contB b2 = true) (hc3 : contB b3 = false) :
    utf8Lossy (b0 :: b1 :: b2 :: b3 :: rest) = 65533 :: utf8Lossy (b3 :: rest) := by
  rw [utf8Lossy.eq_def]; simp [h1, h2, h3, h4, h5, hv, hc2, hc3]

theorem utf8Lossy_four_bad2 {b0 b1 b2 : Nat} (rest : List Nat) (h1 : ¬ b0 < 128)
    (h2 : ¬ b0 < 194) (h3 : ¬ b0 < 224) (h4 : ¬ b0 < 240) (h5 : b0 < 245)
    (hv : valid4 b0 b1 = true) (hc2 : contB b2 = false) :
    utf8Lossy (b0 :: b1 :: b2 :: rest) = 65533 :: utf8Lossy (b2 :: rest) := by
  rw [utf8Lossy.eq_def]; simp [h1, h2, h3, h4, h5, hv, hc2]

theorem utf8Lossy_four_bad1 {b0 b1 : Nat} (rest : List Nat) (h1 : ¬ b0 < 128)
    (h2 : ¬ b0 < 194) (h3 : ¬ b0 < 224) (h4 : ¬ b0 < 240) (h5 : b0 < 245)
    (hv : valid4 b0 b1 = false) :
    utf8Lossy (b0 :: b1 :: rest) = 65533 :: utf8Lossy (b1 :: rest) := by
  rw [utf8Lossy.eq_def]; simp [h1, h2, h3, h4, h5, hv]

theorem utf8Lossy_very_bad {b0 : Nat} (rest : List Nat) (h1 : ¬ b0 < 128) (h2 : ¬ b0 < 194)
    (h3 : ¬ b0 < 224) (h4 : ¬ b0 < 240) (h5 : ¬ b0 < 245) :
    utf8Lossy (b0 :: rest) = 65533 :: utf8Lossy rest := by
  rw [utf8Lossy.eq_def]; simp [h1, h2, h3, h4, h5]

theorem isValidUtf8_one_ok {b0 : Nat} (rest : List Nat) (h1 : b0 < 128) :
    isValidUtf8 (b0 :: rest) = isValidUtf8 rest := by
  rw [isValidUtf8.eq_def]; simp [h1]

theorem isValidUtf8_two_ok {b0 b1 : Nat} (rest : List Nat) (h1 : ¬ b0 < 128) (h2 : ¬ b0 < 194)
    (h3 : b0 < 224) (hc : contB b1 = true) :
    isValidUtf8 (b0 :: b1 :: rest) = isValidUtf8 rest := by
  rw [isValidUtf8.eq_def]; simp [h1, h2, h3, hc]

theorem isValidUtf8_three_ok {b0 b1 b2 : Nat} (rest : List Nat) (h1 : ¬ b0 < 128)
    (h2 : ¬ b0 < 194) (h3 : ¬ b0 < 224) (h4 : b0 < 240) (hv : valid3 b0 b1 = true)
    (hc : contB b2 = true) :
    isValidUtf8 (b0 :: b1 :: b2 :: rest) = isValidUtf8 rest := by
  rw [isValidUtf8.eq_def]; simp [h1, h2, h3, h4, hv, hc]

theorem isValidUtf8_four_ok {b0 b1 b2 b3 : Nat} (rest : List Nat) (h1 : ¬ b0 < 128)
    (h2 : ¬ b0 < 194) (h3 : ¬ b0 < 224) (h4 : ¬ b0 < 240) (h5 : b0 < 245)
    (hv : valid4 b0 b1 = true) (hc2 : contB b2 = true) (hc3 : contB b3 = true) :
    isValidUtf8 (b0 :: b1 :: b2 :: b3 :: rest) = isValidUtf8 rest := by
  rw [isValidUtf8.eq_def]; simp [h1, h2, h3, h4, h5, hv, hc2, hc3]

theorem mem_utf8Lossy_of_invalid {bs : List Nat} :
    isValidUtf8 bs = false → 65533 ∈ utf8Lossy bs := by
  induction bs using utf8Lossy.induct with
  | case1 => intro h; simp [isValidUtf8] at h
  | case2 b rest h1 ih =>
    intro h
    rw [isValidUtf8_one_ok _ h1] at h
    rw [utf8Lossy_one_ok _ h1]
    exact List.mem_cons_of_mem _ (ih h)
  | case3 b rest h1 h2 ih =>
    intro _; rw [utf8Lossy_bad_lead _ h1 h2]; simp
  | case4 b h1 h2 h3 =>
    intro _; rw [utf8Lossy_two_end h1 h2 h3]; simp
  | case5 b h1 h2 h3 b1 rest hc ih =>
    intro h
    rw [isValidUtf8_two_ok _ h1 h2 h3 hc] at h
    rw [utf8Lossy_two_ok _ h1 h2 h3 hc]
    exact List.mem_cons_of_mem _ (ih h)
  | case6 b h1 h2 h3 b1 rest hc ih =>
    intro _
    rw [utf8Lossy_two_bad _ h1 h2 h3 (by simpa using hc)]; simp
  | case7 b h1 h2 h3 h4 =>
    intro _; rw [utf8Lossy_three_end1 h1 h2 h3 h4]; simp
  | case8 b h1 h2 h3 h4 b1 hv =>
    intro _; rw [utf8Lossy_three_end2 h1 h2 h3 h4 hv]; simp
  | case9 b h1 h2 h3 h4 b1 hv b2 rest hc ih =>
    intro h
    rw [isValidUtf8_three_ok _ h1 h2 h3 h4 hv hc] at h
    rw [utf8Lossy_three_ok _ h1 h2 h3 h4 hv hc]
    exact List.mem_cons_of_mem _ (ih h)
  | case10 b h1 h2 h3 h4 b1 hv b2 rest hc ih =>
    intro _
    rw [utf8Lossy_three_bad2 _ h1 h2 h3 h4 hv (by simpa using hc)]; simp
  | case11 b h1 h2 h3 h4 b1 rest hv ih =>
    intro _
    rw [utf8Lossy_three_bad1 _ h1 h2 h3 h4 (by simpa using hv)]; simp
  | case12 b h1 h2 h3 h4 h5 =>
    intro _; rw [utf8Lossy_four_end1 h1 h2 h3 h4 h5]; simp
  | case13 b h1 h2 h3 h4 h5 b1 hv =>
    intro _; rw [utf8Lossy_four_end2 h1 h2 h3 h4 h5 hv]; simp
  | case14 b h1 h2 h3 h4 h5 b1 hv b2 hc =>
    intro _; rw [utf8Lossy_four_end3 h1 h2 h3 h4 h5 hv hc]; simp
  | case15 b h1 h2 h3 h4 h5 b1 hv b2 hc2 b3 rest hc3 ih =>
    intro h
    rw [isValidUtf8_four_ok _ h1 h2 h3 h4 h5 hv hc2 hc3] at h
    rw [utf8Lossy_four_ok _ h1 h2 h3 h4 h5 hv hc2 hc3]
    exact List.mem_cons_of_mem _ (ih h)
  | case16 b h1 h2 h3 h4 h5 b1 hv b2 hc2 b3 rest hc3 ih =>
    intro _
    rw [utf8Lossy_four_bad3 _ h1 h2 h3 h4 h5 hv hc2 (by simpa using hc3)]; simp
  | case17 b h1 h2 h3 h4 h5 b1 hv b2 rest hc2 ih =>
    intro _
    rw [utf8Lossy_four_bad2 _ h1 h2 h3 h4 h5 hv (by simpa using hc2)]; simp
  | case18 b h1 h2 h3 h4 h5 b1 rest hv ih =>
    intro _
    rw [utf8Lossy_four_bad1 _ h1 h2 h3 h4 h5 (by simpa using hv)]; simp
  | case19 b rest h1 h2 h3 h4 h5 ih =>
    intro _; rw [utf8Lossy_very_bad _ h1 h2 h3 h4 h5]; simp

set_option maxRecDepth 4000 in
theorem utf8Lossy_no_space {bs : List Nat} :
    (∀ b ∈ bs, b ≠ 32) → ∀ c ∈ utf8Lossy bs, c ≠ 32 := by
  induction bs using utf8Lossy.induct with
  | case1 => intro _ c hc; simp [utf8Lossy] at hc
  | case2 b rest h1 ih =>
    intro hbs c hc
    rw [utf8Lossy_one_ok _ h1] at hc
    rcases List.mem_cons.mp hc with rfl | hc
    · exact hbs _ (by simp)
    · exact ih (fun x hx => hbs x (List.mem_cons_of_mem _ hx)) _ hc
  | case3 b rest h1 h2 ih =>
    intro hbs c hc
    rw [utf8Lossy_bad_lead _ h1 h2] at hc
    rcases List.mem_cons.mp hc with rfl | hc
    · omega
    · exact ih (fun x hx => hbs x (List.mem_cons_of_mem _ hx)) _ hc
  | case4 b h1 h2 h3 =>
    intro _ c hc
    rw [utf8Lossy_two_end h1 h2 h3] at hc
    have : c = 65533 := by simpa using hc
    omega
  | case5 b h1 h2 h3 b1 rest hc ih =>
    intro hbs c hmem
    rw [utf8Lossy_two_ok _ h1 h2 h3 hc] at hmem
    rcases List.mem_cons.mp hmem with rfl | hmem
    · omega
    · exact ih (fun x hx => hbs x (List.mem_cons_of_mem _ (List.mem_cons_of_mem _ (hx)))) _ hmem
  | case6 b h1 h2 h3 b1 rest hc ih =>
    intro hbs c hmem
    rw [utf8Lossy_two_bad _ h1 h2 h3 (by simpa using hc)] at hmem
    rcases List.mem_cons.mp hmem with rfl | hmem
    · omega
    · exact ih (fun x hx => hbs x (List.mem_cons_of_mem _ hx)) _ hmem
  | case7 b h1 h2 h3 h4 =>
    intro _ c hc
    rw [utf8Lossy_three_end1 h1 h2 h3 h4] at hc
    have : c = 65533 := by simpa using hc
    omega
  | case8 b h1 h2 h3 h4 b1 hv =>
    intro _ c hc
    rw [utf8Lossy_three_end2 h1 h2 h3 h4 hv] at hc
    have : c = 65533 := by simpa using hc
    omega
  | case9 b h1 h2 h3 h4 b1 hv b2 rest hc ih =>
    intro hbs c hmem
    rw [utf8Lossy_three_ok _ h1 h2 h3 h4 hv hc] at hmem
    rcases List.mem_cons.mp hmem with rfl | hmem
    · simp [valid3, contB] at hv
      omega
    · exact ih (fun x hx => hbs x (List.mem_cons_of_mem _ (List.mem_cons_of_mem _ (List.mem_cons_of_mem _ (hx))))) _ hmem
  | case10 b h1 h2 h3 h4 b1 hv b2 rest hc ih =>
    intro hbs c hmem
    rw [utf8Lossy_three_bad2 _ h1 h2 h3 h4 hv (by simpa using hc)] at hmem
    rcases List.mem_cons.mp hmem with rfl | hmem
    · omega
    · exact ih (fun x hx => hbs x (List.mem_cons_of_mem _ (List.mem_cons_of_mem _ (hx)))) _ hmem
  | case11 b h1 h2 h3 h4 b1 rest hv ih =>
    intro hbs c hmem
    rw [utf8Lossy_three_bad1 _ h1 h2 h3 h4 (by simpa using hv)] at hmem
    rcases List.mem_cons.mp hmem with rfl | hmem
    · omega
    · exact ih (fun x hx => hbs x (List.mem_cons_of_mem _ hx)) _ hmem
  | case12 b h1 h2 h3 h4 h5 =>
    intro _ c hc
    rw [utf8Lossy_four_end1 h1 h2 h3 h4 h5] at hc
    have : c = 65533 := by simpa using hc
    omega
  | case13 b h1 h2 h3 h4 h5 b1 hv =>
    intro _ c hc
    rw [utf8Lossy_four_end2 h1 h2 h3 h4 h5 hv] at hc
    have : c = 65533 := by simpa using hc
    omega
  | case14 b h1 h2 h3 h4 h5 b1 hv b2 hc2 =>
    intro _ c hc
    rw [utf8Lossy_four_end3 h1 h2 h3 h4 h5 hv hc2] at hc
    have : c = 65533 := by simpa using hc
    omega
  | case15 b h1 h2 h3 h4 h5 b1 hv b2 hc2 b3 rest hc3 ih =>
    intro hbs c hmem
    rw [utf8Lossy_four_ok _ h1 h2 h3 h4 h5 hv hc2 hc3] at hmem
    rcases List.mem_cons.mp hmem with rfl | hmem
    · simp [valid4, contB] at hv
      omega
    · exact ih (fun x hx => hbs x (List.mem_cons_of_mem _ (List.mem_cons_of_mem _ (List.mem_cons_of_mem _ (List.mem_cons_of_mem _ (hx)))))) _ hmem
  | case16 b h1 h2 h3 h4 h5 b1 hv b2 hc2 b3 rest hc3 ih =>
    intro hbs c hmem
    rw [utf8Lossy_four_bad3 _ h1 h2 h3 h4 h5 hv hc2 (by simpa using hc3)] at hmem
    rcases List.mem_cons.mp hmem with rfl | hmem
    · omega
    · exact ih (fun x hx => hbs x (List.mem_cons_of_mem _ (List.mem_cons_of_mem _ (List.mem_cons_of_mem _ (hx))))) _ hmem
  | case17 b h1 h2 h3 h4 h5 b1 hv b2 rest hc2 ih =>
    intro hbs c hmem
    rw [utf8Lossy_four_bad2 _ h1 h2 h3 h4 h5 hv (by simpa using hc2)] at hmem
    rcases List.mem_cons.mp hmem with rfl | hmem
    · omega
    · exact ih (fun x hx => hbs x (List.mem_cons_of_mem _ (List.mem_cons_of_mem _ (hx)))) _ hmem
  | case18 b h1 h2 h3 h4 h5 b1 rest hv ih =>
    intro hbs c hmem
    rw [utf8Lossy_four_bad1 _ h1 h2 h3 h4 h5 (by simpa using hv)] at hmem
    rcases List.mem_cons.mp hmem with rfl | hmem
    · omega
    · exact ih (fun x hx => hbs x (List.mem_cons_of_mem _ hx)) _ hmem
  | case19 b rest h1 h2 h3 h4 h5 ih =>
    intro hbs c hmem
    rw [utf8Lossy_very_bad _ h1 h2 h3 h4 h5] at hmem
    rcases List.mem_cons.mp hmem with rfl | hmem
    · omega
    · exact ih (fun x hx => hbs x (List.mem_cons_of_mem _ hx)) _ hmem

theorem string_terminated_by_cons {token : List Nat} {t : Nat} (rest : List Nat)
    (hne : token ≠ []) (htok : ∀ b ∈ token, b ≠ t) :
    string_terminated_by (token ++ t :: rest) t = .ok rest (utf8Lossy token) := by
  have hp : ∀ b ∈ token, (fun b => !(b == t)) b = true := by
    intro b hb; simp [htok b hb]
  have hpt : (fun b => !(b == t)) t = false := by simp
  unfold string_terminated_by take_till1
  simp only []
  rw [takeWhile_append_cons hp hpt, dropWhile_append_cons hp hpt]
  simp [List.isEmpty_iff, hne, tagByte]

theorem takeBytes_exact {n : Nat} {xs : List Nat} (rest : List Nat) (h : xs.length = n) :
    takeBytes n (xs ++ rest) = .ok rest xs := by
  unfold takeBytes
  rw [if_neg (by simp [h])]
  rw [List.take_left' h, List.drop_left' h]

theorem countP_length {α : Type} (f : List Nat → PRes α) :
    ∀ (n : Nat) (input rest : List Nat) (vs : List α),
      countP f n input = .ok rest vs → vs.length = n := by
  intro n
  induction n with
  | zero =>
    intro input rest vs h
    simp only [countP] at h
    cases h; rfl
  | succ n ih =>
    intro input rest vs h
    simp only [countP] at h
    split at h
    · cases h
    · cases h
    · rename_i r1 v heqf
      split at h
      · cases h
      · cases h
      · rename_i r2 vs2 heqc
        cases h
        simp [ih _ _ _ heqc]

theorem countP_all {α : Type} (P : α → Prop) (f : List Nat → PRes α)
    (hf : ∀ input rest v, f input = .ok rest v → P v) :
    ∀ (n : Nat) (input rest : List Nat) (vs : List α),
      countP f n input = .ok rest vs → ∀ v ∈ vs, P v := by
  intro n
  induction n with
  | zero =>
    intro input rest vs h
    simp only [countP] at h
    cases h; simp
  | succ n ih =>
    intro input rest vs h
    simp only [countP] at h
    split at h
    · cases h
    · cases h
    · rename_i r1 v heqf
      split at h
      · cases h
      · cases h
      · rename_i r2 vs2 heqc
        cases h
        intro x hx
        rcases List.mem_cons.mp hx with rfl | hx
        · exact hf input r1 x heqf
        · exact ih _ _ _ heqc x hx

theorem countP_le_f32_zeros :
    ∀ n, countP le_f32 n (List.replicate (4 * n) 0) = .ok [] (List.replicate n 0) := by
  intro n
  induction n with
  | zero => simp [countP]
  | succ n ih =>
    have h4 : 4 * (n + 1) = (((4 * n + 1) + 1) + 1) + 1 := by ring
    rw [h4]
    simp only [List.replicate_succ]
    simp only [countP, le_f32]
    rw [ih]

theorem take_till1_ok_byte {p : Nat → Bool} {input rest s : List Nat}
    (h : take_till1 p input = .ok rest s) : ∀ b ∈ s, p b = false := by
  unfold take_till1 at h
  split at h
  · cases h
  · cases h
    intro b hb
    have := List.mem_takeWhile_imp hb
    simpa using this

theorem string_terminated_by_ok_word {input : List Nat} {t : Nat} {rest w : List Nat}
    (h : string_terminated_by input t = .ok rest w) :
    ∃ s, w = utf8Lossy s ∧ ∀ b ∈ s, b ≠ t := by
  unfold string_terminated_by at h
  split at h
  · cases h
  · cases h
  · rename_i input1 s heq
    split at h
    · cases h
    · cases h
    · cases h
      refine ⟨s, rfl, ?_⟩
      intro b hb
      have := take_till1_ok_byte heq b hb
      simpa using this

theorem parse_ok_word_no_space {input : List Nat} {d : Nat} {rest : List Nat}
    {e : Word2VecEmbedding} (h : Word2VecEmbedding.parse input d = .ok rest e) :
    ∀ c ∈ e.word, c ≠ 32 := by
  unfold Word2VecEmbedding.parse at h
  split at h
  · cases h
  · cases h
  · rename_i bytes w heqs
    split at h
    · cases h
    · cases h
    · rename_i bytes2 embBytes heqt
      split at h
      · cases h
      · cases h
      · rename_i remaining emb heqc
        split at h
        · cases h
          rcases string_terminated_by_ok_word heqs with ⟨s, rfl, hs⟩
          exact utf8Lossy_no_space hs
        · cases h

theorem word2VecEmbedding_parse_ok (token vecbytes : List Nat) {ws : List Nat} (rest : List Nat)
    (hne : token ≠ []) (htok : ∀ b ∈ token, b ≠ 32) (hlen : vecbytes.length = 300 * 4)
    (hcount : countP le_f32 300 vecbytes = .ok [] ws) :
    Word2VecEmbedding.parse (token ++ 32 :: (vecbytes ++ rest)) 300 =
      .ok rest ⟨utf8Lossy token, ws⟩ := by
  unfold Word2VecEmbedding.parse
  rw [string_terminated_by_cons _ hne htok]
  simp only []
  rw [takeBytes_exact rest hlen]
  simp only []
  rw [hcount]
  simp

theorem word2VecHeader_parse_cons (ds1 ds2 R : List Nat)
    (h1 : ds1 ≠ []) (hd1 : ∀ d ∈ ds1, isDigitByte d = true) (hv1 : digitsToNat ds1 < 2 ^ 32)
    (h2 : ds2 ≠ []) (hd2 : ∀ d ∈ ds2, isDigitByte d = true) (hv2 : digitsToNat ds2 < 2 ^ 32) :
    Word2VecHeader.parse (ds1 ++ 32 :: (ds2 ++ 10 :: R)) =
      .ok R ⟨digitsToNat ds1, digitsToNat ds2⟩ := by
  unfold Word2VecHeader.parse
  rw [ascii_u32_digits_cons _ h1 hd1 (by decide) hv1]
  simp only []
  rw [ascii_u32_digits_cons _ h2 hd2 (by decide) hv2]

theorem countP_two {α : Type} {f : List Nat → PRes α} {input r1 : List Nat} {v1 v2 : α}
    (hf1 : f input = .ok r1 v1) (hf2 : f r1 = .ok [] v2) :
    countP f 2 input = .ok [] [v1, v2] := by
  show countP f (1 + 1) input = _
  simp only [countP, hf1, hf2]

theorem mapLookup_append (xs ys : List (List Nat × Word2VecEmbedding)) (k : List Nat) :
    mapLookup (xs ++ ys) k =
      match mapLookup xs k with
      | some v => some v
      | none => mapLookup ys k := by
  induction xs with
  | nil => simp [mapLookup]
  | cons p xs ih =>
    obtain ⟨k1, v⟩ := p
    by_cases h : k1 = k <;> simp [mapLookup, h, ih]

theorem mapLookup_filter_ne (m : List (List Nat × Word2VecEmbedding)) (k k' : List Nat)
    (h : k' ≠ k) :
    mapLookup (m.filter (fun p => p.1 != k)) k' = mapLookup m k' := by
  induction m with
  | nil => simp [mapLookup]
  | cons p m ih =>
    obtain ⟨k1, v⟩ := p
    by_cases h1 : k1 = k
    · subst h1
      have hk : ¬ (k1 = k') := fun hh => h hh.symm
      simp [List.filter_cons, mapLookup, hk, ih]
    · by_cases h2 : k1 = k'
      · subst h2
        simp [List.filter_cons, h1, mapLookup]
      · simp [List.filter_cons, h1, mapLookup, h2, ih]

theorem mapLookup_filter_self (m : List (List Nat × Word2VecEmbedding)) (k : List Nat) :
    mapLookup (m.filter (fun p => p.1 != k)) k = none := by
  induction m with
  | nil => simp [mapLookup]
  | cons p m ih =>
    obtain ⟨k1, v⟩ := p
    by_cases h1 : k1 = k
    · simp [List.filter_cons, h1, ih]
    · simp [List.filter_cons, h1, mapLookup, ih]

theorem mapLookup_mapInsert (m : List (List Nat × Word2VecEmbedding))
    (k : List Nat) (v : Word2VecEmbedding) (k' : List Nat) :
    mapLookup (mapInsert m k v) k' = if k' = k then some v else mapLookup m k' := by
  unfold mapInsert
  rw [mapLookup_append]
  by_cases h : k' = k
  · subst h
    rw [mapLookup_filter_self]
    simp [mapLookup]
  · rw [mapLookup_filter_ne _ _ _ h]
    have hk : ¬ (k = k') := fun hh => h hh.symm
    cases hm : mapLookup m k' <;> simp [hm, mapLookup, hk, h]

theorem mapLookup_foldl_insert (es : List Word2VecEmbedding) :
    ∀ (m : List (List Nat × Word2VecEmbedding)) (w : List Nat),
      mapLookup (es.foldl (fun m e => mapInsert m e.word e) m) w =
        match lastWith w es with
        | some v => some v
        | none => mapLookup m w := by
  induction es with
  | nil => intro m w; simp [lastWith]
  | cons e es ih =>
    intro m w
    simp only [List.foldl_cons]
    rw [ih]
    cases hlw : lastWith w es with
    | some v => simp [lastWith, hlw]
    | none =>
      simp only [lastWith, hlw]
      rw [mapLookup_mapInsert]
      by_cases h : w = e.word
      · simp [h]
      · have hk : ¬ (e.word = w) := fun hh => h hh.symm
        simp [h, hk]

theorem mapLookup_buildMap (es : List Word2VecEmbedding) (w : List Nat) :
    mapLookup (buildMap es) w = lastWith w es := by
  unfold buildMap
  rw [mapLookup_foldl_insert]
  cases lastWith w es <;> simp [mapLookup]

theorem mapInsert_keys_nodup {m : List (List Nat × Word2VecEmbedding)} {k : List Nat}
    {v : Word2VecEmbedding} (h : (m.map (fun p => p.1)).Nodup) :
    ((mapInsert m k v).map (fun p => p.1)).Nodup := by
  unfold mapInsert
  rw [List.map_append]
  apply List.Nodup.append
  · exact h.sublist (List.Sublist.map _ (List.filter_sublist m))
  · simp
  · intro x hx hx2
    have hxk : x = k := by simpa using hx2
    subst hxk
    rcases List.mem_map.mp hx with ⟨p, hp, rfl⟩
    have := List.of_mem_filter hp
    simp at this

theorem foldl_insert_keys_nodup (es : List Word2VecEmbedding) :
    ∀ (m : List (List Nat × Word2VecEmbedding)), (m.map (fun p => p.1)).Nodup →
      (((es.foldl (fun m e => mapInsert m e.word e) m)).map (fun p => p.1)).Nodup := by
  induction es with
  | nil => intro m h; simpa using h
  | cons e es ih =>
    intro m h
    simp only [List.foldl_cons]
    exact ih _ (mapInsert_keys_nodup h)

theorem buildMap_keys_nodup (es : List Word2VecEmbedding) :
    ((buildMap es).map (fun p => p.1)).Nodup := by
  unfold buildMap
  exact foldl_insert_keys_nodup es [] (by simp)

theorem lastWith_eq_none_iff {w : List Nat} {es : List Word2VecEmbedding} :
    lastWith w es = none ↔ w ∉ es.map (fun e => e.word) := by
  induction es with
  | nil => simp [lastWith]
  | cons e es ih =>
    cases hlw : lastWith w es with
    | some v =>
      have hmem : w ∈ es.map (fun e => e.word) := by
        by_contra hw
        rw [ih.mpr hw] at hlw
        cases hlw
      simp [lastWith, hlw, hmem]
    | none =>
      simp only [lastWith, hlw]
      by_cases h : e.word = w
      · simp [h.symm]
      · have hne : ¬ (w = e.word) := fun hh => h hh.symm
        have hnm : w ∉ es.map (fun e => e.word) := ih.mp hlw
        simp [h, hne, hnm]

theorem mapLookup_eq_none_iff {m : List (List Nat × Word2VecEmbedding)} {k : List Nat} :
    mapLookup m k = none ↔ k ∉ m.map (fun p => p.1) := by
  induction m with
  | nil => simp [mapLookup]
  | cons p m ih =>
    obtain ⟨k1, v⟩ := p
    by_cases h : k1 = k
    · subst h
      simp [mapLookup]
    · have hne : ¬ (k = k1) := fun hh => h hh.symm
      simp [mapLookup, h, hne, ih]

theorem buildMap_keys_mem {es : List Word2VecEmbedding} {k : List Nat} :
    k ∈ (buildMap es).map (fun p => p.1) ↔ k ∈ es.map (fun e => e.word) := by
  rw [← not_iff_not, ← mapLookup_eq_none_iff, mapLookup_buildMap, lastWith_eq_none_iff]

theorem filter_ne_length {m : List (List Nat × Word2VecEmbedding)} {k : List Nat}
    (h : (m.map (fun p => p.1)).Nodup) :
    (m.filter (fun p => p.1 != k)).length =
      if k ∈ m.map (fun p => p.1) then m.length - 1 else m.length := by
  induction m with
  | nil => simp
  | cons p m ih =>
    obtain ⟨k1, v⟩ := p
    simp only [List.map_cons, List.nodup_cons] at h
    obtain ⟨h1, h2⟩ := h
    by_cases hk : k1 = k
    · subst hk
      have hall : m.filter (fun p => p.1 != k1) = m := by
        apply List.filter_eq_self.mpr
        intro p hp
        simp only [bne_iff_ne, ne_eq]
        intro hh
        exact h1 (by rw [← hh]; exact List.mem_map_of_mem _ hp)
      simp [List.filter_cons, hall]
    · have hne : ¬ (k = k1) := fun hh => hk hh.symm
      by_cases hkm : k ∈ m.map (fun p => p.1)
      · have hlen : 1 ≤ m.length := by
          rcases List.mem_map.mp hkm with ⟨q, hq, _⟩
          have := List.length_pos.mpr (List.ne_nil_of_mem hq)
          omega
        simp [List.filter_cons, hk, ih h2, hkm, hne]
        omega
      · simp [List.filter_cons, hk, ih h2, hkm, hne]

theorem mapInsert_length {m : List (List Nat × Word2VecEmbedding)} {k : List Nat}
    {v : Word2VecEmbedding} (h : (m.map (fun p => p.1)).Nodup) :
    (mapInsert m k v).length =
      if k ∈ m.map (fun p => p.1) then m.length else m.length + 1 := by
  unfold mapInsert
  rw [List.length_append, filter_ne_length h]
  by_cases hkm : k ∈ m.map (fun p => p.1)
  · have hlen : 1 ≤ m.length := by
      rcases List.mem_map.mp hkm with ⟨q, hq, _⟩
      have := List.length_pos.mpr (List.ne_nil_of_mem hq)
      omega
    simp [hkm]
    omega
  · simp [hkm]

theorem buildMap_append_singleton (es : List Word2VecEmbedding) (e : Word2VecEmbedding) :
    buildMap (es ++ [e]) = mapInsert (buildMap es) e.word e := by
  simp [buildMap, List.foldl_append]

theorem buildMap_length (es : List Word2VecEmbedding) :
    (buildMap es).length ≤ es.length ∧
      ((buildMap es).length = es.length ↔ (es.map (fun e => e.word)).Nodup) := by
  induction es using List.reverseRecOn with
  | nil => simp [buildMap]
  | append_singleton es e ih =>
    obtain ⟨ih1, ih2⟩ := ih
    rw [buildMap_append_singleton, mapInsert_length (buildMap_keys_nodup es)]
    have hlen : (es ++ [e]).length = es.length + 1 := by simp
    by_cases hm : e.word ∈ es.map (fun ee => ee.word)
    · have hmem : e.word ∈ (buildMap es).map (fun p => p.1) := buildMap_keys_mem.mpr hm
      rw [if_pos hmem, hlen]
      constructor
      · omega
      · constructor
        · intro hx; omega
        · intro hnd
          exfalso
          rw [List.map_append] at hnd
          rcases List.nodup_append.mp hnd with ⟨_, _, hdisj⟩
          exact hdisj hm (by simp)
    · have hmem : e.word ∉ (buildMap es).map (fun p => p.1) := fun hx =>
        hm (buildMap_keys_mem.mp hx)
      rw [if_neg hmem, hlen]
      constructor
      · omega
      · rw [List.map_append]
        constructor
        · intro hx
          have heq : (buildMap es).length = es.length := by omega
          refine List.Nodup.append (ih2.mp heq) (by simp) ?_
          intro x hx1 hx2
          have : x = e.word := by simpa using hx2
          subst this
          exact hm hx1
        · intro hnd
          have := (List.nodup_append.mp hnd).1
          have heq : (buildMap es).length = es.length := ih2.mpr this
          omega

/-! ## Claim theorems -/

/-- Claim C1 (code bug): the claim says `Word2VecEmbedding::parse` with
`embeddings_dim = d` succeeds on a word token plus `d * 4` bytes and
returns a `d`-component vector. The code instead decodes a hard-coded
`300` floats (`count(le_f32, 300usize)`, `src/parser.rs` line 82): at
`d = 2` with exactly `2 * 4 = 8` bytes available it returns a nom `Eof`
error instead of succeeding with 2 components; only at `d = 300` does
it succeed, with the 300 little-endian words of the vector bytes. -/
theorem record_vector_hardcoded_300 :
    Word2VecEmbedding.parse ([97] ++ 32 :: List.replicate (2 * 4) 0) 2 = .err ⟨[], .Eof⟩ ∧
    Word2VecEmbedding.parse ([97] ++ 32 :: List.replicate 1200 0) 300 =
      .ok [] ⟨[97], List.replicate 300 0⟩ := by
  constructor
  · decide
  · have hcount : countP le_f32 300 (List.replicate 1200 0) = .ok [] (List.replicate 300 0) :=
      countP_le_f32_zeros 300
    have h := word2VecEmbedding_parse_ok [97] (List.replicate 1200 0)
      [] (by decide) (by decide) (by rw [List.length_replicate]) hcount
    rw [List.append_nil] at h
    exact h

/-- Claim C2 (code bug): the claim says `Word2Vec::new` returns the
typed error `FormatError::LengthMismatch` when the declared record
count disagrees with the file content. The code panics instead
(`Word2Vec::new` returns `Self`, not a `Result`): the file
`"0 0\x0a"` followed by one trailing byte hits the
`assert_eq!(bytes.len(), 0)` panic (`src/parser.rs` line 111), and the
file `"1 300\x0a"` with no record bytes panics inside record decoding
(`string_terminated_by(..).unwrap()`). Both loads abort the process
and neither returns an error value. -/
theorem load_length_mismatch_panics :
    Word2Vec.new ([48, 32, 48, 10] ++ [120]) = .crash ∧
    Word2Vec.new [49, 32, 51, 48, 48, 10] = .crash := by
  decide

/-- Claim C3 counterexample: with terminator `t = 0x30` (the digit
`'0'`) and `n = 1`, the input is `"10"`; `digit1` consumes both digit
bytes including the intended terminator, `tag` then fails on empty
input, so the round trip `decode_ascii_uint(format(n) + t, t) =
(empty, n)` fails. The claim is false for digit terminators. -/
theorem ascii_u32_round_trip_digit_terminator :
    ascii_u32_terminated_by (decimalDigits 1 ++ [48]) 48 ≠ .ok [] 1 := by
  decide

/-- Claim C3 (amended): for every `n` in the 32-bit unsigned range and
every terminator byte `t` that is NOT an ASCII digit,
`ascii_u32_terminated_by` applied to the decimal rendering of `n`
followed by `t` succeeds and returns `n` with empty remaining input. -/
theorem ascii_u32_round_trip (n t : Nat) (hn : n < 2 ^ 32) (ht : isDigitByte t = false) :
    ascii_u32_terminated_by (decimalDigits n ++ [t]) t = .ok [] n := by
  have h := ascii_u32_digits_cons [] (decimalDigits_ne_nil n)
    (decimalDigits_all_digits n) ht (by rw [decimalDigits_val]; exact hn)
  rw [decimalDigits_val] at h
  exact h

/-- Claim C3 witness: the round trip at `n = 923732897` (the value used
in the repository's own test) and terminator `';'` (0x3B). -/
theorem ascii_u32_round_trip_witness :
    (923732897 < 2 ^ 32 ∧ isDigitByte 59 = false) ∧
      ascii_u32_terminated_by (decimalDigits 923732897 ++ [59]) 59 = .ok [] 923732897 :=
  ⟨⟨by norm_num, by decide⟩, ascii_u32_round_trip 923732897 59 (by norm_num) (by decide)⟩

/-- Claim C4 (code bug): the claim (and the function's own doc comment,
`src/parser.rs` lines 13–15) says values of `2^32` and above fail with
a typed `IntegerOverflow` error. The code instead calls
`str::parse::<u32>().unwrap()` (line 24), and `unwrap` on the overflow
`Err` panics: on input `"4294967296;"` (the decimal rendering of
exactly `2^32` followed by the terminator) the process aborts instead
of returning an error or succeeding. -/
theorem ascii_u32_overflow_panics :
    digitsToNat [52, 50, 57, 52, 57, 54, 55, 50, 57, 54] = 2 ^ 32 ∧
    ascii_u32_terminated_by ([52, 50, 57, 52, 57, 54, 55, 50, 57, 54] ++ [59]) 59 = .crash := by
  decide

/-- Claim C5 (code bug): the claim says `Word2VecHeader::parse` returns
primitive-decoder failures to its caller as an error value. The code
`.unwrap()`s both `ascii_u32_terminated_by` results (`src/parser.rs`
lines 40–41), so a malformed header panics: input `"hi"` (no digits)
and input `"2 x"` (malformed dimension) both abort the process. The
success half of the claim does hold: on `"2 300\x0a"` followed by a
record byte the parse returns the header and the remaining input. -/
theorem header_parse_error_panics :
    Word2VecHeader.parse [104, 105] = .crash ∧
    Word2VecHeader.parse [50, 32, 120] = .crash ∧
    Word2VecHeader.parse [50, 32, 51, 48, 48, 10, 99] = .ok [99] ⟨2, 300⟩ := by
  decide

/-- Claim C6: for every dimension `d` and every input in which fewer
than `d * 4` bytes remain after the space-terminated word token,
`Word2VecEmbedding::parse` fails with the typed error produced by the
`take` combinator at the vector-bytes stage — nom's `Eof` error on the
remaining input, which the specification names
`FormatError::TruncatedVector`. The failure is a returned error value,
not a panic. -/
theorem record_truncated_vector_error (token rest : List Nat) (d : Nat)
    (hne : token ≠ []) (htok : ∀ b ∈ token, b ≠ 32) (hlen : rest.length < d * 4) :
    Word2VecEmbedding.parse (token ++ 32 :: rest) d = .err ⟨rest, .Eof⟩ := by
  unfold Word2VecEmbedding.parse
  rw [string_terminated_by_cons rest hne htok]
  simp only []
  unfold takeBytes
  rw [if_pos hlen]

/-- Claim C6 witness: word `"a"`, dimension 1, zero vector bytes. -/
theorem record_truncated_vector_error_witness :
    (([97] : List Nat) ≠ [] ∧ (∀ b ∈ ([97] : List Nat), b ≠ 32) ∧
      ([] : List Nat).length < 1 * 4) ∧
    Word2VecEmbedding.parse ([97] ++ 32 :: []) 1 = .err ⟨[], .Eof⟩ :=
  ⟨⟨by decide, by decide, by decide⟩,
    record_truncated_vector_error [97] [] 1 (by decide) (by decide) (by decide)⟩

/-- Claim C8: a word token whose bytes are not valid UTF-8 does not
make decoding fail: `string_terminated_by` succeeds and returns the
lossy decoding of the token (Rust's `String::from_utf8_lossy`), and
that decoding contains the replacement marker `U+FFFD` (65533). -/
theorem word_invalid_utf8_lossy (token rest : List Nat) (t : Nat)
    (htok : ∀ b ∈ token, b ≠ t) (hval : isValidUtf8 token = false) :
    string_terminated_by (token ++ t :: rest) t = .ok rest (utf8Lossy token) ∧
      65533 ∈ utf8Lossy token := by
  have hne : token ≠ [] := by
    rintro rfl
    simp [isValidUtf8] at hval
  exact ⟨string_terminated_by_cons rest hne htok, mem_utf8Lossy_of_invalid hval⟩

/-- Claim C8 witness: the single invalid byte `0xFF` as word token,
space terminator, one remaining byte; the decoded word is exactly one
replacement character. -/
theorem word_invalid_utf8_lossy_witness :
    ((∀ b ∈ ([255] : List Nat), b ≠ 32) ∧ isValidUtf8 [255] = false) ∧
    (string_terminated_by ([255] ++ 32 :: [7]) 32 = .ok [7] (utf8Lossy [255]) ∧
      65533 ∈ utf8Lossy [255]) ∧
    utf8Lossy [255] = [65533] :=
  ⟨⟨by decide, by decide⟩,
    word_invalid_utf8_lossy [255] [7] 32 (by decide) (by decide),
    by decide⟩

theorem dupFile_header :
    Word2VecHeader.parse dupFile = .ok (dupRec1 ++ dupRec2) ⟨2, 300⟩ := by
  have h := word2VecHeader_parse_cons [50] [51, 48, 48]
    (dupRec1 ++ dupRec2) (by decide) (by decide) (by decide)
    (by decide) (by decide) (by decide)
  exact h

theorem countP_cons_le_f32 {n : Nat} {b0 b1 b2 b3 : Nat} {bs ws : List Nat}
    (h : countP le_f32 n bs = .ok [] ws) :
    countP le_f32 (n + 1) (b0 :: b1 :: b2 :: b3 :: bs) =
      .ok [] ((b0 + 256 * b1 + 65536 * b2 + 16777216 * b3) :: ws) := by
  simp only [countP, le_f32]
  rw [h]

theorem dupFile_records :
    countP (fun b => Word2VecEmbedding.parse b 300) 2 (dupRec1 ++ dupRec2) = .ok [] dupEs := by
  have hcount1 : countP le_f32 300 (List.replicate 1200 0) = .ok [] (List.replicate 300 0) :=
    countP_le_f32_zeros 300
  have hf1 : Word2VecEmbedding.parse (dupRec1 ++ dupRec2) 300 = .ok dupRec2 dupE1 :=
    word2VecEmbedding_parse_ok [97] (List.replicate 1200 0) dupRec2
      (by decide) (by decide) (by rw [List.length_replicate]) hcount1
  have hrep : List.replicate 1199 0 = 0 :: 0 :: 0 :: List.replicate 1196 0 := rfl
  have h299 : countP le_f32 299 (List.replicate 1196 0) = .ok [] (List.replicate 299 0) :=
    countP_le_f32_zeros 299
  have hcount2 : countP le_f32 300 (1 :: List.replicate 1199 0) =
      .ok [] (1 :: List.replicate 299 0) := by
    rw [hrep]
    exact countP_cons_le_f32 h299
  have hf2 : Word2VecEmbedding.parse dupRec2 300 = .ok [] dupE2 := by
    have h := word2VecEmbedding_parse_ok [97]
      (1 :: List.replicate 1199 0) [] (by decide) (by decide)
      (by rw [List.length_cons, List.length_replicate]) hcount2
    rw [List.append_nil] at h
    exact h
  exact countP_two hf1 hf2

theorem word2Vec_new_ok_of {bytes bytes1 : List Nat} {h : Word2VecHeader}
    {es : List Word2VecEmbedding}
    (hh : Word2VecHeader.parse bytes = .ok bytes1 h)
    (hc : countP (fun b => Word2VecEmbedding.parse b h.embeddings_dim)
      h.embeddings_count bytes1 = .ok [] es) :
    Word2Vec.new bytes = .ok ⟨h, buildMap es⟩ := by
  unfold Word2Vec.new
  rw [hh]
  simp only []
  rw [hc]
  simp

theorem word2Vec_new_ok_inv {bytes : List Nat} {w2v : Word2Vec}
    (h : Word2Vec.new bytes = .ok w2v) :
    ∃ bytes1 es,
      Word2VecHeader.parse bytes = .ok bytes1 w2v.header ∧
      countP (fun b => Word2VecEmbedding.parse b w2v.header.embeddings_dim)
        w2v.header.embeddings_count bytes1 = .ok [] es ∧
      w2v.embeddings = buildMap es := by
  unfold Word2Vec.new at h
  split at h
  · cases h
  · cases h
  · rename_i bytes1 header heqh
    split at h
    · cases h
    · cases h
    · rename_i bytes2 es heqc
      split at h
      · cases h
        rename_i hlen
        have hb : bytes2 = [] := List.eq_nil_of_length_eq_zero hlen
        subst hb
        exact ⟨bytes1, es, heqh, heqc, rfl⟩
      · cases h

/-- Claim C7: every successful load decomposes into a header parse and
exactly `embeddings_count` record decodes consuming all bytes, and the
returned store is built from those records so that every lookup returns
the LAST record in file order with the looked-up word (later records
with the same word replace earlier ones in the `HashMap`), and the
store's keys are duplicate-free, so earlier duplicate records are
absent from it. -/
theorem load_duplicate_last_write_wins (bytes : List Nat) (w2v : Word2Vec)
    (hw : Word2Vec.new bytes = .ok w2v) :
    ∃ bytes1 es,
      Word2VecHeader.parse bytes = .ok bytes1 w2v.header ∧
      countP (fun b => Word2VecEmbedding.parse b w2v.header.embeddings_dim)
        w2v.header.embeddings_count bytes1 = .ok [] es ∧
      w2v.embeddings = buildMap es ∧
      (∀ w, mapLookup w2v.embeddings w = lastWith w es) ∧
      (w2v.embeddings.map (fun p => p.1)).Nodup := by
  rcases word2Vec_new_ok_inv hw with ⟨bytes1, es, hh, hc, hemb⟩
  refine ⟨bytes1, es, hh, hc, hemb, ?_, ?_⟩
  · intro w
    rw [hemb]
    exact mapLookup_buildMap es w
  · rw [hemb]
    exact buildMap_keys_nodup es

/-- Claim C7 witness: the concrete file `"2 300\x0a"` with two records
both under the word `"a"` loads successfully, and lookup of `"a"` in
the resulting store returns the second record. -/
theorem load_duplicate_last_write_wins_witness :
    Word2Vec.new dupFile = .ok ⟨⟨2, 300⟩, buildMap dupEs⟩ ∧
    (∃ bytes1 es,
      Word2VecHeader.parse dupFile = .ok bytes1 (⟨⟨2, 300⟩, buildMap dupEs⟩ : Word2Vec).header ∧
      countP (fun b => Word2VecEmbedding.parse b 300) 2 bytes1 = .ok [] es ∧
      (⟨⟨2, 300⟩, buildMap dupEs⟩ : Word2Vec).embeddings = buildMap es ∧
      (∀ w, mapLookup (buildMap dupEs) w = lastWith w es) ∧
      ((buildMap dupEs).map (fun p => p.1)).Nodup) ∧
    mapLookup (buildMap dupEs) [97] = some dupE2 := by
  have hw : Word2Vec.new dupFile = .ok ⟨⟨2, 300⟩, buildMap dupEs⟩ :=
    word2Vec_new_ok_of dupFile_header dupFile_records
  refine ⟨hw, load_duplicate_last_write_wins dupFile _ hw, ?_⟩
  rw [mapLookup_buildMap]
  rfl

/-- Claim C9: for every successful load, the number of entries in the
resulting store's map is at most the header's `embeddings_count`, with
equality exactly when the decoded words are pairwise distinct
(duplicates collapse in the `HashMap`). -/
theorem load_store_size_le_count (bytes : List Nat) (w2v : Word2Vec)
    (hw : Word2Vec.new bytes = .ok w2v) :
    ∃ bytes1 es,
      Word2VecHeader.parse bytes = .ok bytes1 w2v.header ∧
      countP (fun b => Word2VecEmbedding.parse b w2v.header.embeddings_dim)
        w2v.header.embeddings_count bytes1 = .ok [] es ∧
      w2v.embeddings = buildMap es ∧
      w2v.embeddings.length ≤ w2v.header.embeddings_count ∧
      (w2v.embeddings.length = w2v.header.embeddings_count ↔
        (es.map (fun e => e.word)).Nodup) := by
  rcases word2Vec_new_ok_inv hw with ⟨bytes1, es, hh, hc, hemb⟩
  have hlen : es.length = w2v.header.embeddings_count := countP_length _ _ _ _ _ hc
  obtain ⟨l1, l2⟩ := buildMap_length es
  refine ⟨bytes1, es, hh, hc, hemb, ?_, ?_⟩
  · rw [hemb, ← hlen]; exact l1
  · rw [hemb, ← hlen]; exact l2

/-- Claim C9 witness: the duplicate-word file loads to a store with 1
entry against a declared count of 2; both sides of the
equality-iff are false (the two decoded words coincide). -/
theorem load_store_size_le_count_witness :
    Word2Vec.new dupFile = .ok ⟨⟨2, 300⟩, buildMap dupEs⟩ ∧
    (buildMap dupEs).length = 1 ∧
    (∃ bytes1 es,
      Word2VecHeader.parse dupFile = .ok bytes1 (⟨⟨2, 300⟩, buildMap dupEs⟩ : Word2Vec).header ∧
      countP (fun b => Word2VecEmbedding.parse b 300) 2 bytes1 = .ok [] es ∧
      (⟨⟨2, 300⟩, buildMap dupEs⟩ : Word2Vec).embeddings = buildMap es ∧
      (buildMap dupEs).length ≤ 2 ∧
      ((buildMap dupEs).length = 2 ↔ (es.map (fun e => e.word)).Nodup)) := by
  have hw : Word2Vec.new dupFile = .ok ⟨⟨2, 300⟩, buildMap dupEs⟩ :=
    word2Vec_new_ok_of dupFile_header dupFile_records
  exact ⟨hw, rfl, load_store_size_le_count dupFile _ hw⟩

/-- Claim C10: for every successful load, no key of the store — hence
no string returned by `dictionary()` — contains the space character
(0x20): the word token is taken strictly up to the first 0x20 byte,
and the lossy UTF-8 decoding of space-free bytes contains no space
scalar value. -/
theorem store_keys_no_space (bytes : List Nat) (w2v : Word2Vec)
    (hw : Word2Vec.new bytes = .ok w2v) :
    ∀ k ∈ w2v.dictionary, 32 ∉ k := by
  rcases word2Vec_new_ok_inv hw with ⟨bytes1, es, hh, hc, hemb⟩
  intro k hk
  have hkm : k ∈ (buildMap es).map (fun p => p.1) := by
    rw [← hemb]
    exact hk
  have hke : k ∈ es.map (fun e => e.word) := buildMap_keys_mem.mp hkm
  rcases List.mem_map.mp hke with ⟨e, he, rfl⟩
  have hall := countP_all (fun v => ∀ c ∈ v.word, c ≠ 32)
    (fun b => Word2VecEmbedding.parse b w2v.header.embeddings_dim)
    (fun input rest v hv => parse_ok_word_no_space hv) _ _ _ _ hc e he
  intro hmem
  exact hall 32 hmem rfl

/-- Claim C10 witness: the duplicate-word file loads successfully and
its dictionary, the one-element list containing the word `"a"`,
contains no space. -/
theorem store_keys_no_space_witness :
    Word2Vec.new dupFile = .ok ⟨⟨2, 300⟩, buildMap dupEs⟩ ∧
    ∀ k ∈ Word2Vec.dictionary ⟨⟨2, 300⟩, buildMap dupEs⟩, 32 ∉ k := by
  have hw : Word2Vec.new dupFile = .ok ⟨⟨2, 300⟩, buildMap dupEs⟩ :=
    word2Vec_new_ok_of dupFile_header dupFile_records
  exact ⟨hw, store_keys_no_space dupFile _ hw⟩
